import Mathlib

/-!
Verification of the numerical-integration library (Butcher tableau validation,
fixed-step and adaptive Runge-Kutta stepping, Velocity-Verlet stepping).

The embedding models the scalar type `R` as `ℚ` (tableau coefficients such as
0.5 and 1.5 are exact in both `f64` and `ℚ`) and the state type `S` as an
arbitrary `ℚ`-module.  Slice indexing that can panic in the source is modelled
with `Option`: a `none` result corresponds to a runtime panic (out-of-bounds
index or `usize` subtraction underflow).  The unbounded `loop` of
`adaptive_step` is modelled with explicit fuel: `none` means the loop has not
returned within the given fuel (or an iteration panicked).
-/

set_option autoImplicit false

/-- A borrowed coefficient matrix `&[&[f64]]`. -/
abbrev Mat := List (List ℚ)

/-- Error type `RKError` from `runge_kutta.rs`. -/
inductive RKError
  | EmptyTableau
  | JaggedTableau
  | TooManyColumns (rows cols : Nat)
  | NonSquareTableau (rows cols : Nat)
  | UnsupportedImplicit
deriving DecidableEq

/-- Classified tableau, `enum ButcherTableau` from `runge_kutta.rs`. -/
inductive ButcherTableau
  | Fixed (t : Mat)
  | Adaptive (t : Mat)
  | Implicit (t : Mat)
  | AdaptiveImplicit (t : Mat)
deriving DecidableEq

/-- The inner scan `for j in i..columns { if table[i][j] != 0.0 { implicit = true; break } }`
of `ButcherTableau::new`.  The row has length `cols` when this is reached, so
the `getD` default is never used. -/
def rowImplicit (row : List ℚ) (i cols : Nat) : Bool :=
  (List.range' i (cols - i)).any fun j => decide (row.getD j 0 ≠ 0)

/-- The row loop of `ButcherTableau::new`: per-row jagged check followed by the
implicit scan, accumulating the `implicit` flag; `i` is the index of the first
row of `l` in the whole matrix. -/
def checkRows (cols : Nat) : Nat → List (List ℚ) → Except RKError Bool
  | _, [] => .ok false
  | i, row :: rest =>
      if row.length ≠ cols then .error .JaggedTableau
      else
        match checkRows cols (i + 1) rest with
        | .error e => .error e
        | .ok impl => .ok (rowImplicit row i cols || impl)

/-- `ButcherTableau::new` from `runge_kutta.rs`: emptiness check, column-count
check, then the jagged/implicit row loop, then structural classification by
`(rows > columns, implicit)`. -/
def ButcherTableau.new (table : Mat) : Except RKError ButcherTableau :=
  if table.length = 0 then .error .EmptyTableau
  else if (table.headD []).length > table.length then
    .error (.TooManyColumns table.length (table.headD []).length)
  else
    match checkRows (table.headD []).length 0 table with
    | .error e => .error e
    | .ok implicit =>
        .ok (if (table.headD []).length < table.length then
              (if implicit then .AdaptiveImplicit table else .Adaptive table)
             else
              (if implicit then .Implicit table else .Fixed table))

/-- `struct RungeKutta<'a>(&'a[&'a[f64]])`. -/
structure RungeKutta where
  table : Mat
deriving DecidableEq

/-- `struct AdaptiveRungeKutta<'a>(&'a[&'a[f64]])`. -/
structure AdaptiveRungeKutta where
  table : Mat
deriving DecidableEq

/-- `RungeKutta::from_matrix`.  In the catch-all arm the source reads
`rk_matrix[0]`, which cannot panic because `ButcherTableau::new` succeeded on a
non-empty matrix, so `headD` is exact there. -/
def RungeKutta.from_matrix (m : Mat) : Except RKError RungeKutta :=
  match ButcherTableau.new m with
  | .error e => .error e
  | .ok (.Fixed t) => .ok ⟨t⟩
  | .ok (.Implicit _) => .error .UnsupportedImplicit
  | .ok _ => .error (.NonSquareTableau m.length (m.headD []).length)

/-- `AdaptiveRungeKutta::from_matrix`. -/
def AdaptiveRungeKutta.from_matrix (m : Mat) : Except RKError AdaptiveRungeKutta :=
  match ButcherTableau.new m with
  | .error e => .error e
  | .ok (.Adaptive t) => .ok ⟨t⟩
  | .ok (.Fixed t) => .error (.TooManyColumns t.length (t.headD []).length)
  | .ok _ => .error .UnsupportedImplicit

/-- `pub const RK1: RungeKutta`, constructed directly from its matrix without
passing through `ButcherTableau::new`. -/
def RK1 : RungeKutta := ⟨[[0, 0], [0, 1]]⟩

/-- `pub const EULER: RungeKutta = RK1;`. -/
def EULER : RungeKutta := RK1

/-- Structural implicitness, following the spec wording: some coefficient at
position `[i][j]` with `j ≥ i` (scanning row `i` from column `i` through the
last column) is nonzero. -/
def ImplicitAt (t : Mat) : Prop :=
  ∃ i ∈ Finset.range t.length, ∃ j ∈ Finset.Ico i (t.headD []).length,
    (t.getD i []).getD j 0 ≠ 0

instance (t : Mat) : Decidable (ImplicitAt t) := by
  unfold ImplicitAt; infer_instance

section Stepping

variable {S : Type} [AddCommGroup S] [Module ℚ S]

/-- Checked slice indexing `tableau[i][j]`; `none` models the panic. -/
def coef (t : Mat) (i j : Nat) : Option ℚ :=
  match t[i]? with
  | none => none
  | some row => row[j]?

/-- The stage-input loop of `compute_k`,
`for j in 1..=i { if tableau[i][j] != 0.0 { y_i += k[j-1] * (dt * tableau[i][j]) } }`,
processed for `j = 1..m`; the `k[j-1]` access happens only when the coefficient
is nonzero, exactly as in the source.  This same loop shape is also the final
combination loop of `Integrator::step`, with `i` the weight-row index and `m`
the number of stages. -/
def stageAcc (t : Mat) (dt : ℚ) (i : Nat) (k : List S) (y : S) : Nat → Option S
  | 0 => some y
  | m + 1 =>
      match stageAcc t dt i k y m with
      | none => none
      | some acc =>
          match coef t i (m + 1) with
          | none => none
          | some a =>
              if a ≠ 0 then
                match k[m]? with
                | none => none
                | some kj => some (acc + (dt * a) • kj)
              else some acc

/-- The stage loop of `compute_k` run for stages `0..n`: stage `i` evaluates
`force (time + dt * tableau[i][0]) y_i` with `y_i` built by `stageAcc`. -/
def computeKAux (t : Mat) (time : ℚ) (s0 : S) (dt : ℚ) (force : ℚ → S → S) :
    Nat → Option (List S)
  | 0 => some []
  | n + 1 =>
      match computeKAux t time s0 dt force n with
      | none => none
      | some k =>
          match coef t n 0 with
          | none => none
          | some c =>
              match stageAcc t dt n k s0 n with
              | none => none
              | some y => some (k ++ [force (time + dt * c) y])

/-- `fn compute_k` from `runge_kutta.rs`: `order = tableau[0].len() - 1` stages.
`tableau[0]` panics on an empty matrix; when `tableau[0]` is an empty row the
`usize` subtraction `len() - 1` underflows set against a subsequent
out-of-bounds read, so execution fails in either build profile — both are
modelled by `none`. -/
def compute_k (t : Mat) (time : ℚ) (s0 : S) (dt : ℚ) (force : ℚ → S → S) :
    Option (List S) :=
  match t[0]? with
  | none => none
  | some row0 =>
      match row0.length with
      | 0 => none
      | m + 1 => computeKAux t time s0 dt force m

/-- `<RungeKutta as Integrator>::step`: `order = self.0.len() - 1` (the `none`
on an empty table models the `usize` underflow panic), `k = compute_k(...)`,
then the final combination loop over all of `k` with the weights of row
`order`, writing the result into `state[0]` and returning it. -/
def RungeKutta.step (rk : RungeKutta) (time : ℚ) (buf : List S) (dt : ℚ)
    (force : ℚ → S → S) : Option (List S × S) :=
  match rk.table.length with
  | 0 => none
  | o + 1 =>
      match buf[0]? with
      | none => none
      | some s0 =>
          match compute_k rk.table time s0 dt force with
          | none => none
          | some k =>
              match stageAcc rk.table dt o k s0 k.length with
              | none => none
              | some s1 => some (buf.set 0 s1, s1)

/-- `<RungeKutta as VelIntegrator>::step_with_vel` simply delegates to
`Integrator::step`, dropping the velocity argument. -/
def RungeKutta.step_with_vel (rk : RungeKutta) (time : ℚ) (buf : List S)
    (dt : ℚ) (_vel : ℚ → S → S) (force : ℚ → S → S) : Option (List S × S) :=
  RungeKutta.step rk time buf dt force

/-- The combined est1/est2 loop of `adaptive_step`:
`for k_j in k { if w1 != 0 { est1 += k_j * (dt*w1) }; if w2 != 0 { est2 += k_j * (dt*w2) }; j += 1 }`
with `w1 = tableau[o][j]` and `w2 = tableau[o+1][j]`, processed for `j = 1..m`.
Both weight reads and the iterator element are demanded unconditionally, as in
the source. -/
def estAcc (t : Mat) (dt : ℚ) (o : Nat) (k : List S) (e1 e2 : S) :
    Nat → Option (S × S)
  | 0 => some (e1, e2)
  | m + 1 =>
      match estAcc t dt o k e1 e2 m with
      | none => none
      | some (a1, a2) =>
          match coef t o (m + 1), coef t (o + 1) (m + 1), k[m]? with
          | some b1, some b2, some kj =>
              some ((if b1 ≠ 0 then a1 + (dt * b1) • kj else a1),
                    (if b2 ≠ 0 then a2 + (dt * b2) • kj else a2))
          | _, _, _ => none

/-- The `loop` body of `adaptive_step` with explicit fuel: compute the stages
with the current trial `dt`, form the two estimates, and either accept
(returning the new slot0 and slot1 contents) or halve `dt` and retry.
`none` means an iteration panicked or the fuel ran out before acceptance. -/
def adaptiveLoop (t : Mat) (time : ℚ) (s0 : S) (ds : ℚ) (force : ℚ → S → S)
    (d : S → S → ℚ) (o : Nat) : ℚ → Nat → Option ((ℚ × S) × (ℚ × S))
  | _, 0 => none
  | dt, fuel + 1 =>
      match compute_k t time s0 dt force with
      | none => none
      | some k =>
          match estAcc t dt o k s0 s0 k.length with
          | none => none
          | some (est1, est2) =>
              if d est1 est2 < ds then
                some ((time + dt, est1), (dt * (3 / 2), est2))
              else adaptiveLoop t time s0 ds force d o (dt * (1 / 2)) fuel

/-- One iteration's error computation: the stages at trial step `dt`, the two
estimates, and `d est1 est2`.  `none` models a panic inside the iteration. -/
def iterErr (t : Mat) (time : ℚ) (s0 : S) (dt : ℚ) (force : ℚ → S → S)
    (d : S → S → ℚ) (o : Nat) : Option ℚ :=
  match compute_k t time s0 dt force with
  | none => none
  | some k =>
      match estAcc t dt o k s0 s0 k.length with
      | none => none
      | some (e1, e2) => some (d e1 e2)

/-- `AdaptiveIntegrator::adaptive_init`: `[(t0, state), (ds, state)]`. -/
def AdaptiveRungeKutta.adaptive_init (_a : AdaptiveRungeKutta) (t0 : ℚ)
    (state : S) (ds : ℚ) : List (ℚ × S) :=
  [(t0, state), (ds, state)]

/-- `<AdaptiveRungeKutta as AdaptiveIntegrator>::adaptive_step`:
`order = self.0[0].len() - 1` (panic on an empty matrix or an empty first row,
modelled by `none`), trial `dt = state[1].0`, `time = state[0].0`, then the
rejection loop; on acceptance `state[0] = (time + dt, est1)`,
`state[1] = (dt * 1.5, est2)` and `state[0]` is returned. -/
def AdaptiveRungeKutta.adaptive_step (a : AdaptiveRungeKutta)
    (buf : List (ℚ × S)) (ds : ℚ) (force : ℚ → S → S) (d : S → S → ℚ)
    (fuel : Nat) : Option (List (ℚ × S) × (ℚ × S)) :=
  match a.table[0]? with
  | none => none
  | some row0 =>
      match row0.length with
      | 0 => none
      | m + 1 =>
          match buf[1]? with
          | none => none
          | some slot1 =>
              match buf[0]? with
              | none => none
              | some slot0 =>
                  match adaptiveLoop a.table slot0.1 slot0.2 ds force d m
                      slot1.1 fuel with
                  | none => none
                  | some (ns0, ns1) => some ((buf.set 0 ns0).set 1 ns1, ns0)

end Stepping

section Verlet

variable {D S : Type} [Inhabited D] [AddCommGroup S] [Module ℚ S]

/-- `<VelocityVerlet as VelIntegrator>::init_with_vel` from `lib.rs`:
`[(Default::default(), state), (Default::default(), S::zero())]`. -/
def VelocityVerlet.init_with_vel (state : S) (_dt : ℚ)
    (_vel _force : ℚ → S → D × S) : List (D × S) :=
  [(default, state), (default, (0 : S))]

/-- `<VelocityVerlet as VelIntegrator>::step_with_vel` from `lib.rs`: the two
`split_first_mut().unwrap()` calls require at least two slots (`none` models
the panic); `mid`, the two half-kicks on `s1.1`, and the replacement of `a1.1`
follow the source line by line.  The auxiliary payloads (`.0` components)
are never touched. -/
def VelocityVerlet.step_with_vel (time : ℚ) (buf : List (D × S)) (dt : ℚ)
    (velocity force : ℚ → S → D × S) : Option (List (D × S) × (D × S)) :=
  match buf with
  | s1 :: a1 :: rest =>
      let mid := s1.2 + dt • a1.2 + (dt * dt * (1 / 2)) • (velocity time a1.2).2
      let sHalf := s1.2 + (dt * (1 / 2)) • a1.2
      let aNew := (force (time + dt) mid).2
      let sFull := sHalf + (dt * (1 / 2)) • aNew
      some ((s1.1, sFull) :: (a1.1, aNew) :: rest, (s1.1, sFull))
  | _ => none

end Verlet

section SpecSide

variable {S : Type} [AddCommGroup S] [Module ℚ S]

/-- Explicit Runge-Kutta stages following the spec wording: `k` for stages
`0..n` with `t_i = time + dt * c_i`, `c_i = tableau[i][0]`, and
`y_i = state + Σ_{j=1..i} a_{ij} * dt * k_{j-1}` as a dense sum (terms with a
zero coefficient contribute zero). -/
def kSpec (t : Mat) (time : ℚ) (s0 : S) (dt : ℚ) (force : ℚ → S → S) :
    Nat → List S
  | 0 => []
  | n + 1 =>
      kSpec t time s0 dt force n ++
        [force (time + dt * (t.getD n []).getD 0 0)
          (s0 + ∑ j in Finset.range n,
            ((t.getD n []).getD (j + 1) 0 * dt) •
              (kSpec t time s0 dt force n).getD j 0)]

/-- Weighted combination following the spec wording:
`state + Σ_{j=1..n} w_j * dt * k_{j-1}` with weights from row `w` of the
tableau and `n` stages. -/
def combineSpec (t : Mat) (w n : Nat) (time : ℚ) (s0 : S) (dt : ℚ)
    (force : ℚ → S → S) : S :=
  s0 + ∑ j in Finset.range n,
    ((t.getD w []).getD (j + 1) 0 * dt) • (kSpec t time s0 dt force n).getD j 0

/-- The fixed-step result claimed by the spec: the last tableau row as
weights, `order = columns - 1` stages. -/
def stepSpec (t : Mat) (time : ℚ) (s0 : S) (dt : ℚ) (force : ℚ → S → S) : S :=
  combineSpec t (t.length - 1) ((t.headD []).length - 1) time s0 dt force

end SpecSide

section ValidationLemmas

/-- Checked indexing below the length agrees with `getD`. -/
theorem getElem?_eq_some_getD {α : Type} (l : List α) (i : Nat) (d : α)
    (h : i < l.length) : l[i]? = some (l.getD i d) := by
  simp [List.getElem?_eq_getElem h, List.getD_eq_getElem?_getD]

/-- If the row loop returns at all, every row it saw has length `cols`. -/
theorem checkRows_rect (cols : Nat) :
    ∀ (l : List (List ℚ)) (i : Nat) (b : Bool), checkRows cols i l = .ok b →
      ∀ r ∈ l, r.length = cols := by
  intro l
  induction l with
  | nil => intro i b _ r hr; cases hr
  | cons row rest ih =>
    intro i b h r hr
    unfold checkRows at h
    by_cases hlen : row.length ≠ cols
    · rw [if_pos hlen] at h; cases h
    · rw [if_neg hlen] at h
      cases hcr : checkRows cols (i + 1) rest with
      | error e => rw [hcr] at h; cases h
      | ok impl =>
        rw [hcr] at h
        rcases List.mem_cons.mp hr with rfl | hr'
        · exact not_ne_iff.mp hlen
        · exact ih (i + 1) impl hcr r hr'

/-- The scan of one row finds a nonzero entry at or right of the diagonal
exactly when one exists. -/
theorem rowImplicit_iff (row : List ℚ) (i cols : Nat) :
    rowImplicit row i cols = true ↔
      ∃ j, i ≤ j ∧ j < cols ∧ row.getD j 0 ≠ 0 := by
  unfold rowImplicit
  rw [List.any_eq_true]
  constructor
  · rintro ⟨j, hj, hpj⟩
    rw [List.mem_range'_1] at hj
    exact ⟨j, hj.1, by omega, of_decide_eq_true hpj⟩
  · rintro ⟨j, h1, h2, h3⟩
    exact ⟨j, List.mem_range'_1.mpr ⟨h1, by omega⟩, decide_eq_true h3⟩

/-- On a rectangular block the row loop returns the accumulated implicit flag,
characterized by the existence of a nonzero entry at position `[a][j]` with
`i + a ≤ j` (`i` is the global index of the block's first row). -/
theorem checkRows_ok_of_rect (cols : Nat) :
    ∀ (l : List (List ℚ)) (i : Nat), (∀ r ∈ l, r.length = cols) →
      ∃ b, checkRows cols i l = .ok b ∧
        (b = true ↔ ∃ a, a < l.length ∧ ∃ j, i + a ≤ j ∧ j < cols ∧
          (l.getD a []).getD j 0 ≠ 0) := by
  intro l
  induction l with
  | nil =>
    intro i _
    exact ⟨false, rfl, by simp⟩
  | cons row rest ih =>
    intro i hrect
    obtain ⟨b, hb, hiff⟩ := ih (i + 1) (fun r hr => hrect r (List.mem_cons_of_mem _ hr))
    refine ⟨rowImplicit row i cols || b, ?_, ?_⟩
    · unfold checkRows
      rw [hb]
      simp [hrect row (List.mem_cons_self _ _)]
    · rw [Bool.or_eq_true, rowImplicit_iff, hiff]
      simp only [List.length_cons]
      constructor
      · rintro (⟨j, h1, h2, h3⟩ | ⟨a, ha, j, h1, h2, h3⟩)
        · exact ⟨0, by omega, j, by omega, h2, by simpa using h3⟩
        · exact ⟨a + 1, by omega, j, by omega, h2, by simpa using h3⟩
      · rintro ⟨a, ha, j, h1, h2, h3⟩
        cases a with
        | zero => exact Or.inl ⟨j, by omega, h2, by simpa using h3⟩
        | succ a' => exact Or.inr ⟨a', by omega, j, by omega, h2, by simpa using h3⟩

/-- A row of deviant length makes the row loop fail with `JaggedTableau`. -/
theorem checkRows_jagged (cols : Nat) :
    ∀ (l : List (List ℚ)) (i : Nat), (∃ r ∈ l, r.length ≠ cols) →
      checkRows cols i l = .error .JaggedTableau := by
  intro l
  induction l with
  | nil => rintro i ⟨r, hr, _⟩; cases hr
  | cons row rest ih =>
    rintro i ⟨r, hr, hne⟩
    unfold checkRows
    by_cases h : row.length ≠ cols
    · simp [h]
    · rcases List.mem_cons.mp hr with rfl | hr'
      · exact absurd hne h
      · rw [if_neg h, ih (i + 1) ⟨r, hr', hne⟩]

/-- Inversion of a successful `ButcherTableau::new`. -/
theorem new_ok_inv (m : Mat) (c : ButcherTableau)
    (h : ButcherTableau.new m = .ok c) :
    m ≠ [] ∧ (∀ r ∈ m, r.length = (m.headD []).length) ∧
      (m.headD []).length ≤ m.length ∧
      ∃ b, checkRows (m.headD []).length 0 m = .ok b ∧
        c = (if (m.headD []).length < m.length then
              (if b then .AdaptiveImplicit m else .Adaptive m)
             else (if b then .Implicit m else .Fixed m)) := by
  unfold ButcherTableau.new at h
  split at h
  · cases h
  · split at h
    · cases h
    · rename_i hne hcols
      split at h
      · cases h
      · rename_i b hcr
        have hm : m ≠ [] := by
          intro hnil
          exact hne (by simp [hnil])
        injection h with h2
        exact ⟨hm, checkRows_rect _ m 0 b hcr, by omega, b, hcr, h2.symm⟩

/-- Inversion for the `Fixed` classification: the table is the input matrix,
which is non-empty, rectangular and square. -/
theorem new_fixed_inv (m tt : Mat) (h : ButcherTableau.new m = .ok (.Fixed tt)) :
    tt = m ∧ m ≠ [] ∧ (∀ r ∈ m, r.length = (m.headD []).length) ∧
      m.length = (m.headD []).length := by
  obtain ⟨h1, h2, h3, b, hcr, hc⟩ := new_ok_inv m _ h
  by_cases hlt : (m.headD []).length < m.length
  · rw [if_pos hlt] at hc
    cases b <;> simp at hc
  · rw [if_neg hlt] at hc
    cases b
    · simp only [Bool.false_eq_true, if_neg] at hc
      injection hc with h4
      exact ⟨h4, h1, h2, by omega⟩
    · simp at hc

/-- Inversion for the `Adaptive` classification: the table is the input
matrix, non-empty, rectangular, with strictly more rows than columns. -/
theorem new_adaptive_inv (m tt : Mat)
    (h : ButcherTableau.new m = .ok (.Adaptive tt)) :
    tt = m ∧ m ≠ [] ∧ (∀ r ∈ m, r.length = (m.headD []).length) ∧
      (m.headD []).length < m.length := by
  obtain ⟨h1, h2, h3, b, hcr, hc⟩ := new_ok_inv m _ h
  by_cases hlt : (m.headD []).length < m.length
  · rw [if_pos hlt] at hc
    cases b
    · simp only [Bool.false_eq_true, if_neg] at hc
      injection hc with h4
      exact ⟨h4, h1, h2, hlt⟩
    · simp at hc
  · rw [if_neg hlt] at hc
    cases b <;> simp at hc

/-- Inversion of a successful `RungeKutta::from_matrix`. -/
theorem rk_from_matrix_inv (m : Mat) (rk : RungeKutta)
    (h : RungeKutta.from_matrix m = .ok rk) :
    rk.table = m ∧ ButcherTableau.new m = .ok (.Fixed m) := by
  unfold RungeKutta.from_matrix at h
  split at h
  · cases h
  · rename_i t hnew
    injection h with h2
    obtain ⟨rfl, -⟩ := new_fixed_inv m t hnew
    exact ⟨by rw [← h2], hnew⟩
  · cases h
  · cases h

/-- Inversion of a successful `AdaptiveRungeKutta::from_matrix`. -/
theorem ark_from_matrix_inv (m : Mat) (a : AdaptiveRungeKutta)
    (h : AdaptiveRungeKutta.from_matrix m = .ok a) :
    a.table = m ∧ ButcherTableau.new m = .ok (.Adaptive m) := by
  unfold AdaptiveRungeKutta.from_matrix at h
  split at h
  · cases h
  · rename_i t hnew
    injection h with h2
    obtain ⟨rfl, -⟩ := new_adaptive_inv m t hnew
    exact ⟨by rw [← h2], hnew⟩
  · cases h
  · cases h

end ValidationLemmas

section StepLemmas

variable {S : Type} [AddCommGroup S] [Module ℚ S]

/-- First element of a non-empty list. -/
theorem getElem?_zero_headD {α : Type} (l : List α) (d : α) (h : l ≠ []) :
    l[0]? = some (l.headD d) := by
  cases l with
  | nil => exact absurd rfl h
  | cons a l => simp

/-- One guarded accumulation step equals the dense term. -/
theorem if_weight_step (dtv w : ℚ) (base km : S) :
    (if w ≠ 0 then base + (dtv * w) • km else base) = base + (w * dtv) • km := by
  by_cases hw : w = 0
  · simp [hw]
  · rw [if_pos hw, mul_comm]

theorem kSpec_length (t : Mat) (time : ℚ) (s0 : S) (dt : ℚ) (f : ℚ → S → S) :
    ∀ n, (kSpec t time s0 dt f n).length = n := by
  intro n
  induction n with
  | zero => rfl
  | succ n ih => simp [kSpec, ih]

/-- The guarded stage-input loop computes the dense weighted sum. -/
theorem stageAcc_eq (t : Mat) (dt : ℚ) (i : Nat) (k : List S) (y : S)
    (row : List ℚ) (hrow : t[i]? = some row) :
    ∀ m, m < row.length → m ≤ k.length →
      stageAcc t dt i k y m =
        some (y + ∑ j in Finset.range m,
          (row.getD (j + 1) 0 * dt) • k.getD j 0) := by
  intro m
  induction m with
  | zero => intro _ _; simp [stageAcc]
  | succ m ih =>
    intro hm hk
    have ih' := ih (by omega) (by omega)
    have hc : coef t i (m + 1) = some (row.getD (m + 1) 0) := by
      simp only [coef, hrow]
      exact getElem?_eq_some_getD row (m + 1) 0 hm
    simp only [stageAcc, ih', hc,
      getElem?_eq_some_getD k m 0 (show m < k.length by omega),
      Finset.sum_range_succ]
    rw [← apply_ite some]
    refine congrArg some ?_
    rw [if_weight_step, add_assoc]

theorem computeKAux_length (t : Mat) (time : ℚ) (s0 : S) (dt : ℚ)
    (f : ℚ → S → S) :
    ∀ n k, computeKAux t time s0 dt f n = some k → k.length = n := by
  intro n
  induction n with
  | zero =>
    intro k h
    injection h with h2
    rw [← h2]
    rfl
  | succ n ih =>
    intro k h
    unfold computeKAux at h
    cases hk : computeKAux t time s0 dt f n with
    | none => simp only [hk] at h; exact Option.noConfusion h
    | some k0 =>
      simp only [hk] at h
      cases hc : coef t n 0 with
      | none => simp only [hc] at h; exact Option.noConfusion h
      | some c =>
        simp only [hc] at h
        cases hs : stageAcc t dt n k0 s0 n with
        | none => simp only [hs] at h; exact Option.noConfusion h
        | some y =>
          simp only [hs, Option.some.injEq] at h
          rw [← h]
          simp [ih k0 hk]

/-- On a rectangular table the stage loop computes exactly the spec stages. -/
theorem computeKAux_eq (t : Mat) (time : ℚ) (s0 : S) (dt : ℚ) (f : ℚ → S → S)
    (cols : Nat) (hrect : ∀ r ∈ t, r.length = cols) :
    ∀ n, n ≤ t.length → n ≤ cols →
      computeKAux t time s0 dt f n = some (kSpec t time s0 dt f n) := by
  intro n
  induction n with
  | zero => intro _ _; rfl
  | succ n ih =>
    intro h1 h2
    have ih' := ih (by omega) (by omega)
    have hn : n < t.length := by omega
    have hrow : t[n]? = some (t.getD n []) := getElem?_eq_some_getD t n [] hn
    have hgd : t.getD n [] = t[n] := by
      simp [List.getD_eq_getElem?_getD, List.getElem?_eq_getElem hn]
    have hlen : (t.getD n []).length = cols := by
      rw [hgd]
      exact hrect _ (List.getElem_mem hn)
    have hc : coef t n 0 = some ((t.getD n []).getD 0 0) := by
      simp only [coef, hrow]
      exact getElem?_eq_some_getD (t.getD n []) 0 0 (by omega)
    have hs := stageAcc_eq t dt n (kSpec t time s0 dt f n) s0 (t.getD n []) hrow
      n (by omega) (by rw [kSpec_length])
    simp only [computeKAux, ih', hc, hs, kSpec]

/-- The combined est1/est2 loop computes the two dense weighted sums. -/
theorem estAcc_eq (t : Mat) (dt : ℚ) (o : Nat) (k : List S) (e1 e2 : S)
    (r1 r2 : List ℚ) (hr1 : t[o]? = some r1) (hr2 : t[o + 1]? = some r2) :
    ∀ m, m < r1.length → m < r2.length → m ≤ k.length →
      estAcc t dt o k e1 e2 m =
        some (e1 + ∑ j in Finset.range m, (r1.getD (j + 1) 0 * dt) • k.getD j 0,
              e2 + ∑ j in Finset.range m, (r2.getD (j + 1) 0 * dt) • k.getD j 0) := by
  intro m
  induction m with
  | zero => intro _ _ _; simp [estAcc]
  | succ m ih =>
    intro hm1 hm2 hk
    have ih' := ih (by omega) (by omega) (by omega)
    have hc1 : coef t o (m + 1) = some (r1.getD (m + 1) 0) := by
      simp only [coef, hr1]
      exact getElem?_eq_some_getD r1 (m + 1) 0 hm1
    have hc2 : coef t (o + 1) (m + 1) = some (r2.getD (m + 1) 0) := by
      simp only [coef, hr2]
      exact getElem?_eq_some_getD r2 (m + 1) 0 hm2
    simp only [estAcc, ih', hc1, hc2,
      getElem?_eq_some_getD k m 0 (show m < k.length by omega),
      Finset.sum_range_succ]
    refine congrArg some ?_
    simp only [Prod.mk.injEq]
    constructor
    · rw [if_weight_step, add_assoc]
    · rw [if_weight_step, add_assoc]

/-- A valid fixed-step table: `step` succeeds and computes exactly the
spec-side combination, replacing slot 0 of the buffer. -/
theorem step_eq_of_valid (rk : RungeKutta) (hne : rk.table ≠ [])
    (hrect : ∀ r ∈ rk.table, r.length = (rk.table.headD []).length)
    (hsq : rk.table.length = (rk.table.headD []).length)
    (time : ℚ) (s : S) (rest : List S) (dt : ℚ) (f : ℚ → S → S) :
    RungeKutta.step rk time (s :: rest) dt f =
      some (stepSpec rk.table time s dt f :: rest,
            stepSpec rk.table time s dt f) := by
  obtain ⟨o, ho⟩ : ∃ o, rk.table.length = o + 1 := by
    cases hl : rk.table.length with
    | zero => exact absurd (List.length_eq_zero.mp hl) hne
    | succ o => exact ⟨o, rfl⟩
  have hcols : (rk.table.headD []).length = o + 1 := by omega
  have hck : compute_k rk.table time s dt f =
      some (kSpec rk.table time s dt f o) := by
    unfold compute_k
    rw [getElem?_zero_headD rk.table [] hne]
    simp only [hcols]
    exact computeKAux_eq rk.table time s dt f (o + 1)
      (by intro r hr; rw [hrect r hr]; exact hcols) o (by omega) (by omega)
  have hrow : rk.table[o]? = some (rk.table.getD o []) :=
    getElem?_eq_some_getD rk.table o [] (by omega)
  have hlen : (rk.table.getD o []).length = o + 1 := by
    have hgd : rk.table.getD o [] = rk.table[o] := by
      simp [List.getD_eq_getElem?_getD, List.getElem?_eq_getElem (show o < rk.table.length by omega)]
    rw [hgd, hrect _ (List.getElem_mem (show o < rk.table.length by omega)), hcols]
  have hfin := stageAcc_eq rk.table dt o (kSpec rk.table time s dt f o) s
    (rk.table.getD o []) hrow o (by rw [hlen]; omega) (by rw [kSpec_length])
  unfold RungeKutta.step
  simp only [ho, List.getElem?_cons_zero, hck, kSpec_length, hfin,
    List.set_cons_zero]
  unfold stepSpec combineSpec
  rw [ho, hcols]
  simp only [Nat.add_sub_cancel]

/-- Row lengths of a rectangular matrix via `getD`. -/
theorem row_length_of_rect (t : Mat) (cols : Nat)
    (hrect : ∀ r ∈ t, r.length = cols) (i : Nat) (hi : i < t.length) :
    (t.getD i []).length = cols := by
  have hgd : t.getD i [] = t[i] := by
    simp [List.getD_eq_getElem?_getD, List.getElem?_eq_getElem hi]
  rw [hgd]
  exact hrect _ (List.getElem_mem hi)

/-- On a valid adaptive table one loop iteration computes the stages and both
spec-side estimates. -/
theorem adaptive_iter_eq (t : Mat) (o : Nat) (hne : t ≠ [])
    (hrect : ∀ r ∈ t, r.length = (t.headD []).length)
    (hcols : (t.headD []).length = o + 1)
    (hlt : (t.headD []).length < t.length)
    (time : ℚ) (s0 : S) (dt : ℚ) (f : ℚ → S → S) (d : S → S → ℚ) :
    compute_k t time s0 dt f = some (kSpec t time s0 dt f o) ∧
    estAcc t dt o (kSpec t time s0 dt f o) s0 s0 o =
      some (combineSpec t o o time s0 dt f,
            combineSpec t (o + 1) o time s0 dt f) ∧
    iterErr t time s0 dt f d o =
      some (d (combineSpec t o o time s0 dt f)
              (combineSpec t (o + 1) o time s0 dt f)) := by
  have hck : compute_k t time s0 dt f = some (kSpec t time s0 dt f o) := by
    unfold compute_k
    rw [getElem?_zero_headD t [] hne]
    simp only [hcols]
    exact computeKAux_eq t time s0 dt f (o + 1)
      (by intro r hr; rw [hrect r hr]; exact hcols) o (by omega) (by omega)
  have hr1 : t[o]? = some (t.getD o []) :=
    getElem?_eq_some_getD t o [] (by omega)
  have hr2 : t[o + 1]? = some (t.getD (o + 1) []) :=
    getElem?_eq_some_getD t (o + 1) [] (by omega)
  have hl1 : (t.getD o []).length = o + 1 := by
    rw [row_length_of_rect t _ hrect o (by omega)]; exact hcols
  have hl2 : (t.getD (o + 1) []).length = o + 1 := by
    rw [row_length_of_rect t _ hrect (o + 1) (by omega)]; exact hcols
  have hest := estAcc_eq t dt o (kSpec t time s0 dt f o) s0 s0
    (t.getD o []) (t.getD (o + 1) []) hr1 hr2 o (by omega) (by omega)
    (by rw [kSpec_length])
  refine ⟨hck, hest, ?_⟩
  unfold iterErr
  simp only [hck, kSpec_length, hest]
  rfl

/-- Accepting iteration of the rejection loop on a valid adaptive table. -/
theorem adaptiveLoop_accept (t : Mat) (o : Nat) (hne : t ≠ [])
    (hrect : ∀ r ∈ t, r.length = (t.headD []).length)
    (hcols : (t.headD []).length = o + 1)
    (hlt : (t.headD []).length < t.length)
    (time : ℚ) (s0 : S) (ds dt : ℚ) (f : ℚ → S → S) (d : S → S → ℚ)
    (fuel : Nat)
    (hacc : d (combineSpec t o o time s0 dt f)
              (combineSpec t (o + 1) o time s0 dt f) < ds) :
    adaptiveLoop t time s0 ds f d o dt (fuel + 1) =
      some ((time + dt, combineSpec t o o time s0 dt f),
            (dt * (3 / 2), combineSpec t (o + 1) o time s0 dt f)) := by
  obtain ⟨hck, hest, -⟩ :=
    adaptive_iter_eq t o hne hrect hcols hlt time s0 dt f d
  unfold adaptiveLoop
  simp only [hck, kSpec_length, hest]
  rw [if_pos hacc]

/-- Rejecting iteration: the loop recurses with the halved trial step. -/
theorem adaptiveLoop_reject (t : Mat) (o : Nat) (hne : t ≠ [])
    (hrect : ∀ r ∈ t, r.length = (t.headD []).length)
    (hcols : (t.headD []).length = o + 1)
    (hlt : (t.headD []).length < t.length)
    (time : ℚ) (s0 : S) (ds dt : ℚ) (f : ℚ → S → S) (d : S → S → ℚ)
    (fuel : Nat)
    (hrej : ¬ d (combineSpec t o o time s0 dt f)
              (combineSpec t (o + 1) o time s0 dt f) < ds) :
    adaptiveLoop t time s0 ds f d o dt (fuel + 1) =
      adaptiveLoop t time s0 ds f d o (dt * (1 / 2)) fuel := by
  obtain ⟨hck, hest, -⟩ :=
    adaptive_iter_eq t o hne hrect hcols hlt time s0 dt f d
  rw [adaptiveLoop]
  simp only [hck, kSpec_length, hest]
  rw [if_neg hrej]

/-- Whether the guarded stage loop panics depends only on the tableau and the
target list's length, not on the scalar data. -/
theorem stageAcc_some_transfer (t : Mat) (dt dt' : ℚ) (i : Nat)
    (k k' : List S) (y y' : S) :
    ∀ m v, stageAcc t dt i k y m = some v → m ≤ k'.length →
      ∃ v', stageAcc t dt' i k' y' m = some v' := by
  intro m
  induction m with
  | zero => intro v _ _; exact ⟨y', rfl⟩
  | succ m ih =>
    intro v h hm
    unfold stageAcc at h
    cases hprev : stageAcc t dt i k y m with
    | none => simp only [hprev] at h; exact Option.noConfusion h
    | some acc =>
      simp only [hprev] at h
      cases hc : coef t i (m + 1) with
      | none => simp only [hc] at h; exact Option.noConfusion h
      | some a =>
        obtain ⟨acc', hacc'⟩ := ih acc hprev (by omega)
        by_cases ha : a = 0
        · refine ⟨acc', ?_⟩
          unfold stageAcc
          simp only [hacc', hc, ha]
          simp
        · refine ⟨acc' + (dt' * a) • k'.getD m 0, ?_⟩
          unfold stageAcc
          simp only [hacc', hc, if_pos ha,
            getElem?_eq_some_getD k' m 0 (show m < k'.length by omega)]

/-- Whether the stage computation panics is independent of the numeric
arguments. -/
theorem computeKAux_transfer (t : Mat) (time time' : ℚ) (s0 s0' : S)
    (dt dt' : ℚ) (f f' : ℚ → S → S) :
    ∀ n k, computeKAux t time s0 dt f n = some k →
      ∃ k', computeKAux t time' s0' dt' f' n = some k' := by
  intro n
  induction n with
  | zero => intro k _; exact ⟨[], rfl⟩
  | succ n ih =>
    intro k h
    unfold computeKAux at h
    cases hk : computeKAux t time s0 dt f n with
    | none => simp only [hk] at h; exact Option.noConfusion h
    | some k0 =>
      simp only [hk] at h
      cases hc : coef t n 0 with
      | none => simp only [hc] at h; exact Option.noConfusion h
      | some c =>
        simp only [hc] at h
        cases hs : stageAcc t dt n k0 s0 n with
        | none => simp only [hs] at h; exact Option.noConfusion h
        | some y =>
          obtain ⟨k0', hk0'⟩ := ih k0 hk
          have hl0 : k0.length = n := computeKAux_length t time s0 dt f n k0 hk
          have hl0' : k0'.length = n :=
            computeKAux_length t time' s0' dt' f' n k0' hk0'
          obtain ⟨y', hy'⟩ :=
            stageAcc_some_transfer t dt dt' n k0 k0' s0 s0' n y hs (by omega)
          refine ⟨k0' ++ [f' (time' + dt' * c) y'], ?_⟩
          unfold computeKAux
          simp only [hk0', hc, hy']

/-- Same for the est1/est2 loop. -/
theorem estAcc_transfer (t : Mat) (dt dt' : ℚ) (o : Nat) (k k' : List S)
    (e1 e2 e1' e2' : S) :
    ∀ m p, estAcc t dt o k e1 e2 m = some p → m ≤ k'.length →
      ∃ p', estAcc t dt' o k' e1' e2' m = some p' := by
  intro m
  induction m with
  | zero => intro p _ _; exact ⟨(e1', e2'), rfl⟩
  | succ m ih =>
    intro p h hm
    unfold estAcc at h
    cases hprev : estAcc t dt o k e1 e2 m with
    | none => simp only [hprev] at h; exact Option.noConfusion h
    | some q =>
      simp only [hprev] at h
      obtain ⟨a1, a2⟩ := q
      cases hc1 : coef t o (m + 1) with
      | none => simp only [hc1] at h; exact Option.noConfusion h
      | some b1 =>
        cases hc2 : coef t (o + 1) (m + 1) with
        | none => simp only [hc1, hc2] at h; exact Option.noConfusion h
        | some b2 =>
          cases hkm : k[m]? with
          | none => simp only [hc1, hc2, hkm] at h; exact Option.noConfusion h
          | some kj =>
            obtain ⟨q', hq'⟩ := ih (a1, a2) hprev (by omega)
            obtain ⟨a1', a2'⟩ := q'
            refine ⟨((if b1 ≠ 0 then a1' + (dt' * b1) • k'.getD m 0 else a1'),
                     (if b2 ≠ 0 then a2' + (dt' * b2) • k'.getD m 0 else a2')),
                    ?_⟩
            unfold estAcc
            simp only [hq', hc1, hc2,
              getElem?_eq_some_getD k' m 0 (show m < k'.length by omega)]

/-- Whether one loop iteration panics does not depend on the trial step
size: a computed error at one `dt` guarantees a computed error at any
other. -/
theorem iterErr_transfer (t : Mat) (time : ℚ) (s0 : S) (dt dt' : ℚ)
    (f : ℚ → S → S) (d : S → S → ℚ) (o : Nat) (e : ℚ)
    (h : iterErr t time s0 dt f d o = some e) :
    ∃ e', iterErr t time s0 dt' f d o = some e' := by
  unfold iterErr at h
  cases hk : compute_k t time s0 dt f with
  | none => simp only [hk] at h; exact Option.noConfusion h
  | some k =>
    simp only [hk] at h
    cases hest : estAcc t dt o k s0 s0 k.length with
    | none => simp only [hest] at h; exact Option.noConfusion h
    | some p =>
      unfold compute_k at hk
      cases h0 : t[0]? with
      | none => simp only [h0] at hk; exact Option.noConfusion hk
      | some row0 =>
        simp only [h0] at hk
        cases hr0 : row0.length with
        | zero => simp only [hr0] at hk; exact Option.noConfusion hk
        | succ m =>
          simp only [hr0] at hk
          obtain ⟨k', hk'⟩ :=
            computeKAux_transfer t time time s0 s0 dt dt' f f m k hk
          have hl : k.length = m := computeKAux_length t time s0 dt f m k hk
          have hl' : k'.length = m :=
            computeKAux_length t time s0 dt' f m k' hk'
          have hck' : compute_k t time s0 dt' f = some k' := by
            unfold compute_k
            simp only [h0, hr0]
            exact hk'
          obtain ⟨p', hp'⟩ :=
            estAcc_transfer t dt dt' o k k' s0 s0 s0 s0 k.length p hest
              (by omega)
          obtain ⟨p1, p2⟩ := p'
          rw [show k.length = k'.length by omega] at hp'
          refine ⟨d p1 p2, ?_⟩
          unfold iterErr
          simp only [hck', hp']

end StepLemmas

section Claims

variable {S : Type} [AddCommGroup S] [Module ℚ S]
variable {D : Type} [Inhabited D]

/-- Claim C1: for every tableau accepted as a fixed-step Runge-Kutta
integrator, every non-empty buffer, every time, step-size `dt` and derivative
function, `step` computes exactly the explicit RK formula — stages
`k_i = f(time + dt*c_i, state + Σ_{j=1..i} a_ij*dt*k_{j-1})` for
`i = 0..order-1` with `order = columns - 1`, then
`state + Σ_{j=1..order} b_j*dt*k_{j-1}` with the tableau's last row as
weights (in the code zero coefficients are skipped rather than multiplied;
over exact arithmetic the value is the dense sum) — writes it into the
buffer's slot 0, and returns it. -/
theorem spec_claim_C1 (m : Mat) (rk : RungeKutta)
    (hok : RungeKutta.from_matrix m = .ok rk)
    (time : ℚ) (s : S) (rest : List S) (dt : ℚ) (f : ℚ → S → S) :
    RungeKutta.step rk time (s :: rest) dt f =
      some (stepSpec rk.table time s dt f :: rest,
            stepSpec rk.table time s dt f) := by
  obtain ⟨htab, hnew⟩ := rk_from_matrix_inv m rk hok
  subst htab
  obtain ⟨-, hne, hrect, hsq⟩ := new_fixed_inv rk.table rk.table hnew
  exact step_eq_of_valid rk hne hrect hsq time s rest dt f

/-- Witness for C1: the accepted 3-by-3 explicit tableau
`[[0,0,0],[1,0,0],[0,1,0]]` on `dy/dt = y`, `y0 = 1`, `dt = 1` gives
`1 + dt*k_0 = 2`. -/
theorem spec_claim_C1_witness :
    RungeKutta.from_matrix [[0, 0, 0], [1, 0, 0], [0, 1, 0]] =
        .ok ⟨[[0, 0, 0], [1, 0, 0], [0, 1, 0]]⟩ ∧
    RungeKutta.step (⟨[[0, 0, 0], [1, 0, 0], [0, 1, 0]]⟩ : RungeKutta)
        0 [(1 : ℚ)] 1 (fun _ y => y) = some ([2], 2) := by
  refine ⟨rfl, ?_⟩
  have h := spec_claim_C1 [[0, 0, 0], [1, 0, 0], [0, 1, 0]]
    ⟨[[0, 0, 0], [1, 0, 0], [0, 1, 0]]⟩ rfl 0 (1 : ℚ) [] 1 (fun _ y => y)
  rw [h]
  norm_num [stepSpec, combineSpec, kSpec, Finset.sum_range_succ, smul_eq_mul]

/-- Claim C9: the coefficient matrix of the built-in `EULER` constant,
`[[0,0],[0,1]]`, is rejected by `RungeKutta::from_matrix` with
`UnsupportedImplicit`, because the implicit-detection scan includes the final
weight row's diagonal entry (`table[1][1] = 1`); the named constants are
defined directly from their matrices and never pass through this
validation. -/
theorem spec_claim_C9 :
    RungeKutta.from_matrix RK1.table = .error .UnsupportedImplicit ∧
    EULER = RK1 ∧ RK1.table = [[0, 0], [0, 1]] ∧
    (RK1.table.getD 1 []).getD 1 0 ≠ 0 := by
  refine ⟨rfl, rfl, rfl, ?_⟩
  norm_num [RK1]

/-- Claim C10: for every fixed-step integrator and all arguments,
`step_with_vel` returns exactly what `step` returns — the velocity argument
has no effect on the result. -/
theorem spec_claim_C10 :
    ∀ (rk : RungeKutta) (time : ℚ) (buf : List S) (dt : ℚ)
      (v1 v2 f : ℚ → S → S),
      RungeKutta.step_with_vel rk time buf dt v1 f =
          RungeKutta.step rk time buf dt f ∧
      RungeKutta.step_with_vel rk time buf dt v1 f =
          RungeKutta.step_with_vel rk time buf dt v2 f := by
  intro rk time buf dt v1 v2 f
  exact ⟨rfl, rfl⟩

/-- Claim C6: `VelocityVerlet::init_with_vel` returns the two-slot buffer
`[state, zero]` (with default auxiliary payloads), and `step_with_vel` on a
buffer with slots `s` and `a` computes
`mid = s + a*dt + velocity(time, a)*(dt^2/2)`, then
`s' = s + a*(dt/2) + a_new*(dt/2)` with `a_new = force(time + dt, mid)`,
returns the new `s` and leaves the new `a` in the buffer's slot 1. -/
theorem spec_claim_C6 :
    (∀ (state : S) (dt : ℚ) (v f : ℚ → S → D × S),
      VelocityVerlet.init_with_vel state dt v f =
        [((default : D), state), (default, (0 : S))]) ∧
    (∀ (time dt : ℚ) (dD aD : D) (s a : S) (rest : List (D × S))
      (v f : ℚ → S → D × S),
      VelocityVerlet.step_with_vel time ((dD, s) :: (aD, a) :: rest) dt v f =
        some (((dD, s + (dt / 2) • a + (dt / 2) •
                  (f (time + dt)
                    (s + dt • a + (dt ^ 2 / 2) • (v time a).2)).2) ::
               (aD, (f (time + dt)
                    (s + dt • a + (dt ^ 2 / 2) • (v time a).2)).2) :: rest),
              (dD, s + (dt / 2) • a + (dt / 2) •
                (f (time + dt)
                  (s + dt • a + (dt ^ 2 / 2) • (v time a).2)).2))) := by
  constructor
  · intro state dt v f
    rfl
  · intro time dt dD aD s a rest v f
    simp only [VelocityVerlet.step_with_vel]
    rw [show dt * (1 / 2) = dt / 2 by ring,
        show dt * dt * (1 / 2) = dt ^ 2 / 2 by ring]

/-- Counterexample to C3 as stated: `[[0],[0],[0]]` (3 rows, 1 column) is a
non-empty rectangular matrix with columns ≤ rows that classifies `Adaptive`,
although it does not satisfy rows = columns + 1. -/
theorem spec_claim_C3_counterexample :
    ButcherTableau.new [[0], [0], [0]] = .ok (.Adaptive [[0], [0], [0]]) ∧
    ([[0], [0], [0]] : Mat).length ≠
      (([[0], [0], [0]] : Mat).headD []).length + 1 := by
  exact ⟨rfl, by decide⟩

/-- Amended C3: the classification is exactly structural, with `Adaptive`
(resp. `AdaptiveImplicit`) whenever rows > columns — any number of extra
rows, not exactly one — and implicitness exactly the existence of a nonzero
coefficient at `[i][j]` with `j ≥ i`. -/
theorem spec_claim_C3 (t : Mat) (hne : t ≠ [])
    (hrect : ∀ r ∈ t, r.length = (t.headD []).length)
    (hcr : (t.headD []).length ≤ t.length) :
    ButcherTableau.new t = .ok
      (if (t.headD []).length < t.length then
        (if ImplicitAt t then .AdaptiveImplicit t else .Adaptive t)
       else (if ImplicitAt t then .Implicit t else .Fixed t)) := by
  obtain ⟨b, hb, hiff⟩ := checkRows_ok_of_rect (t.headD []).length t 0 hrect
  have himp : (b = true) ↔ ImplicitAt t := by
    rw [hiff]
    unfold ImplicitAt
    simp only [Finset.mem_range, Finset.mem_Ico]
    constructor
    · rintro ⟨a, ha, j, h1, h2, h3⟩
      exact ⟨a, ha, j, ⟨by omega, h2⟩, h3⟩
    · rintro ⟨i, hi, j, ⟨h1, h2⟩, h3⟩
      exact ⟨i, hi, j, by omega, h2, h3⟩
  unfold ButcherTableau.new
  rw [if_neg (by intro h0; exact hne (List.length_eq_zero.mp h0)),
      if_neg (by omega), hb]
  cases hbv : b with
  | false =>
    have hni : ¬ ImplicitAt t := by
      rw [← himp, hbv]
      simp
    simp only [hbv, if_neg hni]
    simp
  | true =>
    have hyi : ImplicitAt t := himp.mp hbv
    simp only [hbv, if_pos hyi]
    simp

/-- Witness for the amended C3 on the accepted adaptive matrix `[[0],[0]]`. -/
theorem spec_claim_C3_witness :
    ButcherTableau.new [[0], [0]] = .ok (.Adaptive [[0], [0]]) := by
  have h := spec_claim_C3 [[0], [0]] (by decide) (by decide) (by decide)
  rw [h, if_pos (by decide), if_neg (by decide)]

/-- Counterexample to C4 as stated: the jagged matrix `[[0,0,0],[0]]`, whose
first row is longer than the row count, yields `TooManyColumns(2,3)` rather
than `JaggedTableau`: the column-count check runs before the jagged check. -/
theorem spec_claim_C4_counterexample :
    ButcherTableau.new [[0, 0, 0], [0]] = .error (.TooManyColumns 2 3) ∧
    RKError.TooManyColumns 2 3 ≠ .JaggedTableau := by
  exact ⟨rfl, by decide⟩

/-- Amended C4: validation checks emptiness first, then column count versus
row count (`TooManyColumns`), and only then row-by-row equal length
(`JaggedTableau`); the jagged result is guaranteed only when row 0 is no
longer than the number of rows. -/
theorem spec_claim_C4 :
    (ButcherTableau.new [] = .error .EmptyTableau) ∧
    (∀ t : Mat, t ≠ [] → t.length < (t.headD []).length →
      ButcherTableau.new t =
        .error (.TooManyColumns t.length (t.headD []).length)) ∧
    (∀ t : Mat, t ≠ [] → (t.headD []).length ≤ t.length →
      (∃ r ∈ t, r.length ≠ (t.headD []).length) →
      ButcherTableau.new t = .error .JaggedTableau) := by
  refine ⟨rfl, ?_, ?_⟩
  · intro t hne hlt
    unfold ButcherTableau.new
    rw [if_neg (by intro h0; exact hne (List.length_eq_zero.mp h0)),
        if_pos (by omega)]
  · intro t hne hle hj
    unfold ButcherTableau.new
    rw [if_neg (by intro h0; exact hne (List.length_eq_zero.mp h0)),
        if_neg (by omega), checkRows_jagged _ t 0 hj]

/-- Witness for the amended C4 at concrete inputs. -/
theorem spec_claim_C4_witness :
    ButcherTableau.new [[0, 0, 0], [0, 0, 0]] =
      .error (.TooManyColumns 2 3) ∧
    ButcherTableau.new [[0, 0], [0]] = .error .JaggedTableau := by
  constructor
  · exact spec_claim_C4.2.1 [[0, 0, 0], [0, 0, 0]] (by decide) (by decide)
  · exact spec_claim_C4.2.2 [[0, 0], [0]] (by decide) (by decide) (by decide)

/-- Counterexample to C5 as stated: the square explicit matrix `[[0]]` is
not classified `Adaptive`, and `AdaptiveRungeKutta::from_matrix` on it fails
with `TooManyColumns(1,1)` — neither `NonSquareTableau` nor
`UnsupportedImplicit`. -/
theorem spec_claim_C5_counterexample :
    AdaptiveRungeKutta.from_matrix [[0]] = .error (.TooManyColumns 1 1) ∧
    RKError.TooManyColumns 1 1 ≠ .NonSquareTableau 1 1 ∧
    RKError.TooManyColumns 1 1 ≠ .UnsupportedImplicit := by
  exact ⟨rfl, by decide, by decide⟩

/-- Amended C5: the exact error mapping of the two constructors —
`RungeKutta::from_matrix` gives `UnsupportedImplicit` for `Implicit` and
`NonSquareTableau` for `Adaptive`/`AdaptiveImplicit`;
`AdaptiveRungeKutta::from_matrix` gives `TooManyColumns` for `Fixed` and
`UnsupportedImplicit` for `Implicit`/`AdaptiveImplicit`; and every possible
error is one of the five `RKError` variants, returned as a value. -/
theorem spec_claim_C5 (m : Mat) (c : ButcherTableau)
    (h : ButcherTableau.new m = .ok c) :
    ((∃ t, c = .Implicit t) →
      RungeKutta.from_matrix m = .error .UnsupportedImplicit) ∧
    ((∃ t, c = .Adaptive t ∨ c = .AdaptiveImplicit t) →
      RungeKutta.from_matrix m =
        .error (.NonSquareTableau m.length (m.headD []).length)) ∧
    ((∃ t, c = .Fixed t) →
      AdaptiveRungeKutta.from_matrix m =
        .error (.TooManyColumns m.length (m.headD []).length)) ∧
    ((∃ t, c = .Implicit t ∨ c = .AdaptiveImplicit t) →
      AdaptiveRungeKutta.from_matrix m = .error .UnsupportedImplicit) ∧
    (∀ e : RKError, e = .EmptyTableau ∨ e = .JaggedTableau ∨
      (∃ r cl, e = .TooManyColumns r cl) ∨
      (∃ r cl, e = .NonSquareTableau r cl) ∨ e = .UnsupportedImplicit) := by
  refine ⟨?_, ?_, ?_, ?_, ?_⟩
  · rintro ⟨t, rfl⟩
    unfold RungeKutta.from_matrix
    rw [h]
  · rintro ⟨t, rfl | rfl⟩ <;> (unfold RungeKutta.from_matrix; rw [h])
  · rintro ⟨t, rfl⟩
    obtain ⟨rfl, -, -, -⟩ := new_fixed_inv m t h
    unfold AdaptiveRungeKutta.from_matrix
    rw [h]
  · rintro ⟨t, rfl | rfl⟩ <;> (unfold AdaptiveRungeKutta.from_matrix; rw [h])
  · intro e
    cases e <;> simp

/-- Witness for the amended C5 at concrete matrices of each classification. -/
theorem spec_claim_C5_witness :
    RungeKutta.from_matrix [[5]] = .error .UnsupportedImplicit ∧
    AdaptiveRungeKutta.from_matrix [[0, 0], [1, 0]] =
      .error (.TooManyColumns 2 2) ∧
    RungeKutta.from_matrix [[0], [0]] = .error (.NonSquareTableau 2 1) := by
  refine ⟨?_, ?_, ?_⟩
  · exact (spec_claim_C5 [[5]] (.Implicit [[5]]) rfl).1 ⟨_, rfl⟩
  · exact (spec_claim_C5 [[0, 0], [1, 0]] (.Fixed [[0, 0], [1, 0]]) rfl).2.2.1
      ⟨_, rfl⟩
  · exact (spec_claim_C5 [[0], [0]] (.Adaptive [[0], [0]]) rfl).2.1
      ⟨_, Or.inl rfl⟩

/-- Unfolding of `adaptive_step` on a two-slot buffer over a table with
`o + 1` columns: it is the rejection loop plus the final buffer write. -/
theorem adaptive_step_unfold (a : AdaptiveRungeKutta) (o : Nat)
    (hne : a.table ≠ []) (hcols : (a.table.headD []).length = o + 1)
    (time dtv ds : ℚ) (s0 scr : S) (f : ℚ → S → S) (d : S → S → ℚ)
    (fuel : Nat) :
    a.adaptive_step [(time, s0), (dtv, scr)] ds f d fuel =
      (match adaptiveLoop a.table time s0 ds f d o dtv fuel with
       | none => none
       | some (ns0, ns1) => some ([ns0, ns1], ns0)) := by
  unfold AdaptiveRungeKutta.adaptive_step
  rw [getElem?_zero_headD a.table [] hne]
  simp only [hcols, List.getElem?_cons_zero, List.getElem?_cons_succ]
  cases adaptiveLoop a.table time s0 ds f d o dtv fuel with
  | none => rfl
  | some p =>
    obtain ⟨ns0, ns1⟩ := p
    rfl

/-- Counterexample to C2 as stated: the degenerate matrix `[[]]` (one empty
row) is accepted by `AdaptiveRungeKutta::from_matrix`, but `adaptive_step`
fails at runtime (the `usize` order computation underflows and the stage
computation indexes out of bounds) instead of performing the described
accept, even though the supplied metric reports error `0 < 1 = ds`. -/
theorem spec_claim_C2_counterexample :
    AdaptiveRungeKutta.from_matrix [[]] =
      .ok (⟨[[]]⟩ : AdaptiveRungeKutta) ∧
    AdaptiveRungeKutta.adaptive_step (⟨[[]]⟩ : AdaptiveRungeKutta)
      [((0 : ℚ), (0 : ℚ)), (1, 0)] 1 (fun _ y => y) (fun _ _ => 0) 5 =
      none ∧
    ((fun (_ _ : ℚ) => (0 : ℚ)) 0 0) < 1 := by
  exact ⟨rfl, rfl, by norm_num⟩

/-- Amended C2 (restricted to accepted adaptive tableaus with at least one
column): each iteration of `adaptive_step` computes the stages with the
current trial `dt`, forms `est1` from weight row `order` and `est2` from
weight row `order + 1`, and sets `err = metric.distance(est1, est2)`;
if `err < ds` it accepts — slot 0 becomes `(time + dt, est1)`, slot 1
becomes `(dt * 1.5, est2)`, `(time + dt, est1)` is returned, and the
accepted estimates satisfy `distance(est1, est2) < ds`; otherwise it halves
`dt` and retries, the whole call equalling the call on the buffer with the
halved trial step and everything else untouched. -/
theorem spec_claim_C2 (m : Mat) (a : AdaptiveRungeKutta) (o : Nat)
    (hok : AdaptiveRungeKutta.from_matrix m = .ok a)
    (hcols : (a.table.headD []).length = o + 1)
    (time dtv ds : ℚ) (s0 scr : S) (f : ℚ → S → S) (d : S → S → ℚ)
    (fuel : Nat) :
    (d (combineSpec a.table o o time s0 dtv f)
        (combineSpec a.table (o + 1) o time s0 dtv f) < ds →
      a.adaptive_step [(time, s0), (dtv, scr)] ds f d (fuel + 1) =
        some ([(time + dtv, combineSpec a.table o o time s0 dtv f),
               (dtv * (3 / 2), combineSpec a.table (o + 1) o time s0 dtv f)],
              (time + dtv, combineSpec a.table o o time s0 dtv f)) ∧
      d (combineSpec a.table o o time s0 dtv f)
        (combineSpec a.table (o + 1) o time s0 dtv f) < ds) ∧
    (¬ d (combineSpec a.table o o time s0 dtv f)
        (combineSpec a.table (o + 1) o time s0 dtv f) < ds →
      a.adaptive_step [(time, s0), (dtv, scr)] ds f d (fuel + 1) =
        a.adaptive_step [(time, s0), (dtv * (1 / 2), scr)] ds f d fuel) := by
  obtain ⟨htab, hnew⟩ := ark_from_matrix_inv m a hok
  subst htab
  obtain ⟨-, hne, hrect, hlt⟩ := new_adaptive_inv a.table a.table hnew
  constructor
  · intro hacc
    refine ⟨?_, hacc⟩
    rw [adaptive_step_unfold a o hne hcols time dtv ds s0 scr f d (fuel + 1),
        adaptiveLoop_accept a.table o hne hrect hcols hlt time s0 ds dtv f d
          fuel hacc]
  · intro hrej
    rw [adaptive_step_unfold a o hne hcols time dtv ds s0 scr f d (fuel + 1),
        adaptive_step_unfold a o hne hcols time (dtv * (1 / 2)) ds s0 scr f d
          fuel,
        adaptiveLoop_reject a.table o hne hrect hcols hlt time s0 ds dtv f d
          fuel hrej]

/-- Witness for the amended C2: the accepted adaptive tableau
`[[0,0],[1,0],[0,1]]` on `dy/dt = y` with the zero metric accepts at once:
`est1 = 1`, `est2 = 2`, buffer becomes `[(1,1),(3/2,2)]`. -/
theorem spec_claim_C2_witness :
    AdaptiveRungeKutta.adaptive_step
        (⟨[[0, 0], [1, 0], [0, 1]]⟩ : AdaptiveRungeKutta)
        [((0 : ℚ), (1 : ℚ)), (1, 0)] 1 (fun _ y => y) (fun _ _ => 0) 1 =
      some ([(1, 1), (3 / 2, 2)], (1, 1)) := by
  have h := (spec_claim_C2 [[0, 0], [1, 0], [0, 1]]
      ⟨[[0, 0], [1, 0], [0, 1]]⟩ 1 rfl rfl 0 1 1 (1 : ℚ) 0
      (fun _ y => y) (fun _ _ => 0) 0).1 (by norm_num)
  rw [h.1]
  norm_num [combineSpec, kSpec, Finset.sum_range_succ, smul_eq_mul]

/-- Any loop return implies an accepting iteration in the halving
sequence. -/
theorem adaptiveLoop_some_iter (t : Mat) (time : ℚ) (s0 : S) (ds : ℚ)
    (f : ℚ → S → S) (d : S → S → ℚ) (o : Nat) :
    ∀ fuel dt r, adaptiveLoop t time s0 ds f d o dt fuel = some r →
      ∃ n e, iterErr t time s0 (dt * (1 / 2) ^ n) f d o = some e ∧
        e < ds := by
  intro fuel
  induction fuel with
  | zero => intro dt r h; exact Option.noConfusion h
  | succ fuel ih =>
    intro dt r h
    unfold adaptiveLoop at h
    cases hk : compute_k t time s0 dt f with
    | none => simp only [hk] at h; exact Option.noConfusion h
    | some k =>
      simp only [hk] at h
      cases hest : estAcc t dt o k s0 s0 k.length with
      | none => simp only [hest] at h; exact Option.noConfusion h
      | some p =>
        obtain ⟨e1, e2⟩ := p
        simp only [hest] at h
        by_cases hlt : d e1 e2 < ds
        · refine ⟨0, d e1 e2, ?_, hlt⟩
          rw [pow_zero, mul_one]
          unfold iterErr
          simp only [hk, hest]
        · rw [if_neg hlt] at h
          obtain ⟨n, e, hn, he⟩ := ih (dt * (1 / 2)) r h
          refine ⟨n + 1, e, ?_, he⟩
          rw [show dt * (1 / 2) ^ (n + 1) = dt * (1 / 2) * (1 / 2) ^ n by
            ring]
          exact hn

/-- One loop unfolding, phrased through the iteration's computed error. -/
theorem adaptiveLoop_unfold_iter (t : Mat) (time : ℚ) (s0 : S) (ds : ℚ)
    (f : ℚ → S → S) (d : S → S → ℚ) (o : Nat) (dt e0 : ℚ) (fuel : Nat)
    (h : iterErr t time s0 dt f d o = some e0) :
    ∃ e1 e2, e0 = d e1 e2 ∧
      adaptiveLoop t time s0 ds f d o dt (fuel + 1) =
        (if e0 < ds then some ((time + dt, e1), (dt * (3 / 2), e2))
         else adaptiveLoop t time s0 ds f d o (dt * (1 / 2)) fuel) := by
  unfold iterErr at h
  cases hk : compute_k t time s0 dt f with
  | none => simp only [hk] at h; exact Option.noConfusion h
  | some k =>
    simp only [hk] at h
    cases hest : estAcc t dt o k s0 s0 k.length with
    | none => simp only [hest] at h; exact Option.noConfusion h
    | some p =>
      obtain ⟨e1, e2⟩ := p
      simp only [hest, Option.some.injEq] at h
      refine ⟨e1, e2, h.symm, ?_⟩
      rw [adaptiveLoop]
      simp only [hk, hest]
      rw [← h]

/-- An accepting iteration at halving depth `n` gives the loop enough fuel
to return. -/
theorem iter_some_adaptiveLoop (t : Mat) (time : ℚ) (s0 : S) (ds : ℚ)
    (f : ℚ → S → S) (d : S → S → ℚ) (o : Nat) :
    ∀ n dt e, iterErr t time s0 (dt * (1 / 2) ^ n) f d o = some e →
      e < ds →
      ∃ fuel r, adaptiveLoop t time s0 ds f d o dt fuel = some r := by
  intro n
  induction n with
  | zero =>
    intro dt e hn he
    rw [pow_zero, mul_one] at hn
    obtain ⟨e1, e2, heq, hu⟩ :=
      adaptiveLoop_unfold_iter t time s0 ds f d o dt e 0 hn
    exact ⟨1, ((time + dt, e1), (dt * (3 / 2), e2)),
      by rw [hu, if_pos he]⟩
  | succ n ih =>
    intro dt e hn he
    obtain ⟨e0, he0⟩ :=
      iterErr_transfer t time s0 (dt * (1 / 2) ^ (n + 1)) dt f d o e hn
    by_cases h0 : e0 < ds
    · obtain ⟨e1, e2, heq, hu⟩ :=
        adaptiveLoop_unfold_iter t time s0 ds f d o dt e0 0 he0
      exact ⟨1, ((time + dt, e1), (dt * (3 / 2), e2)),
        by rw [hu, if_pos h0]⟩
    · have hn' : iterErr t time s0 (dt * (1 / 2) * (1 / 2) ^ n) f d o =
          some e := by
        rw [show dt * (1 / 2) * (1 / 2) ^ n = dt * (1 / 2) ^ (n + 1) by
          ring]
        exact hn
      obtain ⟨fuel, r, hf⟩ := ih (dt * (1 / 2)) e hn' he
      obtain ⟨e1, e2, heq, hu⟩ :=
        adaptiveLoop_unfold_iter t time s0 ds f d o dt e0 fuel he0
      refine ⟨fuel + 1, r, ?_⟩
      rw [hu, if_neg h0]
      exact hf

/-- Claim C7: the rejection loop has no retry cap, minimum step-size floor
or error exit.  In the fuel-indexed model: the loop returns at some fuel iff
some iteration, at trial step `dt * (1/2)^n`, computes an error below the
tolerance; and if no iteration's computed error falls below the tolerance,
the loop returns nothing at every fuel — `adaptive_step` never returns. -/
theorem spec_claim_C7 (t : Mat) (time : ℚ) (s0 : S) (ds : ℚ)
    (f : ℚ → S → S) (d : S → S → ℚ) (o : Nat) (dt : ℚ) :
    ((∃ fuel r, adaptiveLoop t time s0 ds f d o dt fuel = some r) ↔
      (∃ n e, iterErr t time s0 (dt * (1 / 2) ^ n) f d o = some e ∧
        e < ds)) ∧
    ((∀ n e, iterErr t time s0 (dt * (1 / 2) ^ n) f d o = some e →
        ¬ e < ds) →
      ∀ fuel, adaptiveLoop t time s0 ds f d o dt fuel = none) := by
  constructor
  · constructor
    · rintro ⟨fuel, r, h⟩
      exact adaptiveLoop_some_iter t time s0 ds f d o fuel dt r h
    · rintro ⟨n, e, hn, he⟩
      exact iter_some_adaptiveLoop t time s0 ds f d o n dt e hn he
  · intro hnone fuel
    cases hl : adaptiveLoop t time s0 ds f d o dt fuel with
    | none => rfl
    | some r =>
      obtain ⟨n, e, hn, he⟩ :=
        adaptiveLoop_some_iter t time s0 ds f d o fuel dt r hl
      exact absurd he (hnone n e hn)

/-- Witness for C7: with the constant-zero metric and tolerance 0 no
iteration is ever accepted, and the loop refuses to return at fuel 2. -/
theorem spec_claim_C7_witness :
    adaptiveLoop [[0, 0], [1, 0], [0, 1]] 0 (1 : ℚ) 0 (fun _ y => y)
      (fun _ _ => 0) 1 1 2 = none := by
  refine (spec_claim_C7 [[0, 0], [1, 0], [0, 1]] 0 (1 : ℚ) 0 (fun _ y => y)
      (fun _ _ => 0) 1 1).2 ?_ 2
  intro n e h
  have hit := (adaptive_iter_eq [[0, 0], [1, 0], [0, 1]] 1 (by decide)
      (by decide) (by decide) (by decide) 0 (1 : ℚ) (1 * (1 / 2) ^ n)
      (fun _ y => y) (fun _ _ => 0)).2.2
  rw [h] at hit
  injection hit with h2
  rw [h2]
  norm_num

/-- Counterexample to C8 as stated: `[[]]` (one empty row) is accepted by
`AdaptiveRungeKutta::from_matrix`, yet stepping fails at runtime — the order
computation `self.0[0].len() - 1` underflows (panic in a debug build) and the
subsequent stage computation reads `tableau[0][0]` out of bounds (panic in a
release build); both failures are the `none` of the model. -/
theorem spec_claim_C8_counterexample :
    AdaptiveRungeKutta.from_matrix [[]] =
      .ok (⟨[[]]⟩ : AdaptiveRungeKutta) ∧
    AdaptiveRungeKutta.adaptive_step (⟨[[]]⟩ : AdaptiveRungeKutta)
      [((1 : ℚ), (2 : ℚ)), (1, 2)] 1 (fun _ y => y) (fun x _ => x) 3 =
      none ∧
    iterErr [[]] (1 : ℚ) (2 : ℚ) 1 (fun _ y => y) (fun _ _ => (0 : ℚ)) 0 =
      none := by
  exact ⟨rfl, rfl, rfl⟩

/-- Amended C8 (tableaus whose rows are non-empty): once `from_matrix`
accepts a tableau, stepping with an init-produced buffer never fails at
runtime — every index into the tableau, the stage vector and the buffer is
in bounds: the fixed-step `step` returns a value on any non-empty buffer;
one adaptive iteration always computes its error and the adaptive init
buffer has both slots the stepper reads; and Velocity-Verlet's
`step_with_vel` returns a value on its two-slot init buffer. -/
theorem spec_claim_C8 :
    (∀ (m : Mat) (rk : RungeKutta), RungeKutta.from_matrix m = .ok rk →
      ∀ (time : ℚ) (s : S) (rest : List S) (dt : ℚ) (f : ℚ → S → S),
        (RungeKutta.step rk time (s :: rest) dt f).isSome) ∧
    (∀ (m : Mat) (a : AdaptiveRungeKutta) (o : Nat),
      AdaptiveRungeKutta.from_matrix m = .ok a →
      (a.table.headD []).length = o + 1 →
      (∀ (time : ℚ) (s0 : S) (dt : ℚ) (f : ℚ → S → S) (d : S → S → ℚ),
        (iterErr a.table time s0 dt f d o).isSome) ∧
      (∀ (t0 : ℚ) (st : S) (ds0 : ℚ),
        ((a.adaptive_init t0 st ds0)[0]?).isSome ∧
        ((a.adaptive_init t0 st ds0)[1]?).isSome)) ∧
    (∀ (state : S) (time dt : ℚ) (v f : ℚ → S → D × S),
      (VelocityVerlet.step_with_vel time
        (VelocityVerlet.init_with_vel state dt v f) dt v f).isSome) := by
  refine ⟨?_, ?_, ?_⟩
  · intro m rk hok time s rest dt f
    obtain ⟨htab, hnew⟩ := rk_from_matrix_inv m rk hok
    subst htab
    obtain ⟨-, hne, hrect, hsq⟩ := new_fixed_inv rk.table rk.table hnew
    rw [step_eq_of_valid rk hne hrect hsq time s rest dt f]
    rfl
  · intro m a o hok hcols
    obtain ⟨htab, hnew⟩ := ark_from_matrix_inv m a hok
    subst htab
    obtain ⟨-, hne, hrect, hlt⟩ := new_adaptive_inv a.table a.table hnew
    constructor
    · intro time s0 dt f d
      rw [(adaptive_iter_eq a.table o hne hrect hcols hlt time s0 dt f
        d).2.2]
      rfl
    · intro t0 st ds0
      exact ⟨rfl, rfl⟩
  · intro state time dt v f
    rfl

/-- Witness for the amended C8 at concrete integrators and inputs. -/
theorem spec_claim_C8_witness :
    (RungeKutta.step (⟨[[0, 0], [1, 0]]⟩ : RungeKutta) 0 [(5 : ℚ)] 1
      (fun _ y => y)).isSome ∧
    (iterErr [[0, 0], [1, 0], [0, 1]] (2 : ℚ) (3 : ℚ) 1 (fun _ y => y)
      (fun _ _ => 0) 1).isSome ∧
    (VelocityVerlet.step_with_vel 0
      (VelocityVerlet.init_with_vel (1 : ℚ) 1 (fun _ y => ((0 : ℚ), y))
        (fun _ y => ((0 : ℚ), y))) 1 (fun _ y => ((0 : ℚ), y))
      (fun _ y => ((0 : ℚ), y))).isSome := by
  have H := @spec_claim_C8 ℚ inferInstance inferInstance ℚ inferInstance
  refine ⟨?_, ?_, ?_⟩
  · exact H.1 [[0, 0], [1, 0]] ⟨[[0, 0], [1, 0]]⟩ rfl 0 5 [] 1
      (fun _ y => y)
  · exact (H.2.1 [[0, 0], [1, 0], [0, 1]]
      ⟨[[0, 0], [1, 0], [0, 1]]⟩ 1 rfl rfl).1 2 3 1 (fun _ y => y)
      (fun _ _ => 0)
  · exact H.2.2 (1 : ℚ) 0 1 (fun _ y => ((0 : ℚ), y))
      (fun _ y => ((0 : ℚ), y))

end Claims
